import Mathlib

/-!
Verification of the teehistorian extractor's replay parser and helpers.

The definitions below are a shallow embedding of the Rust sources:
  * src/tick.rs        : per-tick state (input vectors, player positions)
  * src/parser.rs      : the replay state machine (Parser, DDNetSequence)
  * src/extractor.rs   : the per-file extraction loop
  * src/preprocess.rs  : Duration and cut_duration
  * src/export.rs      : weighted_jaccard

Conventions of the embedding:
  * Rust i32 values are modelled as unbounded Int.  The one place where the
    source relies on 32-bit wrap-around (wrapping_add in
    Tick::apply_input_diff) is modelled explicitly by wrap32 below, which is
    two's-complement reduction modulo 2^32.  Plain i32 addition (positions,
    tick_index) is modelled as Int addition; overflow there would be a Rust
    debug panic and is outside the behaviours of interest.
  * Rust HashMap is modelled as an association list with Rust insert/get/
    remove semantics (insert replaces any existing binding).  The only place
    where HashMap iteration order is observable is handle_eos, which
    completes the remaining active sequences in an arbitrary order; the
    association-list order is one determinization, and the invariants proved
    below are order-independent.
  * Fallible operations return Option / an explicit result type.  A Rust
    panic (panic!, assert!, unwrap, expect) is modelled as the result
    "panicked" / Option.none; a recoverable Result::Err is modelled as an
    error result that carries the parser state the Rust object would retain.
-/

namespace TeeExtract

/-- Association-list lookup, modelling HashMap::get (insert below keeps at
most one binding per key, and lookup returns the most recent one). -/
def alookup {κ β : Type} [DecidableEq κ] (k : κ) : List (κ × β) → Option β
  | [] => none
  | e :: rest => if e.1 = k then some e.2 else alookup k rest

/-- Association-list removal, modelling HashMap::remove (value discarded). -/
def aerase {κ β : Type} [DecidableEq κ] (k : κ) (l : List (κ × β)) : List (κ × β) :=
  l.filter (fun e => decide (e.1 ≠ k))

/-- Association-list insertion, modelling HashMap::insert: any existing
binding for the key is replaced. -/
def ains {κ β : Type} [DecidableEq κ] (k : κ) (v : β) (l : List (κ × β)) : List (κ × β) :=
  (k, v) :: aerase k l

/-- Two's-complement reduction modulo 2^32: the value in
[-2^31, 2^31) congruent to x.  Models the result of i32 arithmetic. -/
def wrap32 (x : Int) : Int := (x + 2 ^ 31) % 2 ^ 32 - 2 ^ 31

/-- i32::wrapping_add, as used in Tick::apply_input_diff. -/
def wrapAdd (a b : Int) : Int := wrap32 (a + b)

/-- A raw input vector; the source always uses [i32; 10]. -/
abbrev InputVec := List Int

/-- Tick (src/tick.rs): per-tick absolute input vectors and player positions,
both keyed by client id. -/
structure Tick where
  input_vectors : List (Int × InputVec)
  player_positions : List (Int × (Int × Int))
deriving Repr, DecidableEq

namespace Tick

/-- Tick::new. -/
def new : Tick := ⟨[], []⟩

/-- Tick::add_init_position: asserts the cid is absent (panic otherwise,
modelled as none). -/
def add_init_position (t : Tick) (cid x y : Int) : Option Tick :=
  match alookup cid t.player_positions with
  | some _ => none
  | none => some { t with player_positions := ains cid (x, y) t.player_positions }

/-- Tick::add_init_input: if the cid already has an input vector the source
logs a warning and then panics (modelled as none); otherwise it inserts. -/
def add_init_input (t : Tick) (cid : Int) (input : InputVec) : Option Tick :=
  match alookup cid t.input_vectors with
  | some _ => none
  | none => some { t with input_vectors := ains cid input t.input_vectors }

/-- Tick::apply_input_diff: if the cid has no input vector the source logs an
error and drops the diff; otherwise it adds element-wise with i32 wrapping. -/
def apply_input_diff (t : Tick) (cid : Int) (dinput : InputVec) : Tick :=
  match alookup cid t.input_vectors with
  | none => t
  | some input =>
      { t with input_vectors := ains cid (List.zipWith wrapAdd input dinput) t.input_vectors }

/-- Tick::apply_position_diff: the position must be present (expect, i.e.
panic otherwise, modelled as none). -/
def apply_position_diff (t : Tick) (cid dx dy : Int) : Option Tick :=
  match alookup cid t.player_positions with
  | none => none
  | some pos =>
      some { t with player_positions := ains cid (pos.1 + dx, pos.2 + dy) t.player_positions }

/-- Tick::remove_player_position: the position must be present (expect). -/
def remove_player_position (t : Tick) (cid : Int) : Option Tick :=
  match alookup cid t.player_positions with
  | none => none
  | some _ => some { t with player_positions := aerase cid t.player_positions }

end Tick

/-- The input vector stored for cid after InputNew(v) followed by a series of
InputDiff chunks, all applied to a fresh tick (src/tick.rs). -/
def inputAfterDiffs (cid : Int) (v : InputVec) (ds : List InputVec) : Option InputVec :=
  match Tick.new.add_init_input cid v with
  | none => none
  | some t0 => alookup cid ((ds.foldl (fun t d => t.apply_input_diff cid d) t0).input_vectors)

/-- Duration (src/preprocess.rs): an inclusive closed range of tick indices.
The field named end in the source is a Lean keyword, hence end_. -/
structure Duration where
  start : Nat
  end_ : Nat
deriving Repr, DecidableEq

namespace Duration

/-- Duration::tick_count; end is inclusive. -/
def tick_count (d : Duration) : Nat := d.end_ - d.start + 1

/-- Duration::cut_duration.  Note: the slices are anchored at 0
(start = target_length * idx), not at d.start.  target_length = 0 would be a
Rust division-by-zero panic; the claims only concern target_length > 0. -/
def cut_duration (d : Duration) (target_length : Nat) : List Duration :=
  (List.range (d.tick_count / target_length)).map
    (fun idx => { start := target_length * idx, end_ := target_length * idx + target_length - 1 })

end Duration

/-- The accumulator loop of weighted_jaccard (src/export.rs): iterates over
a.keys().chain(b.keys()) -- note that keys present in both maps are visited
twice -- accumulating (num, den, shared). -/
def wjLoop (a b : List (String × Nat)) : Nat × Nat × Nat :=
  (a.map Prod.fst ++ b.map Prod.fst).foldl
    (fun acc key =>
      let av := (alookup key a).getD 0
      let bv := (alookup key b).getD 0
      (acc.1 + min av bv, acc.2.1 + max av bv,
        acc.2.2 + (if 0 < av ∧ 0 < bv then 1 else 0)))
    (0, 0, 0)

/-- weighted_jaccard (src/export.rs), returning (sim, shared).  The source
computes sim in f64; the division of the two exact naturals is modelled in ℚ
(the divergence exhibited below, 2/3 vs 1/2, is far beyond f64 rounding). -/
def weighted_jaccard (a b : List (String × Nat)) : ℚ × Nat :=
  let r := wjLoop a b
  (if r.2.1 = 0 then 0 else (r.1 : ℚ) / (r.2.1 : ℚ), r.2.2)

/-- Modelled from the spec: the similarity the spec describes,
sim(a,b) = Σ min(a_i, b_i) / Σ max(a_i, b_i) over the union of the keys
(absent keys counted as 0, each key counted once), 0 if the denominator is 0.
This is the comparison definition for the weighted-Jaccard claim; the code's
definition is weighted_jaccard above. -/
def weightedJaccardSpec (a b : List (String × Nat)) : ℚ :=
  let keys := (a.map Prod.fst ++ b.map Prod.fst).dedup
  let num := (keys.map (fun k => min ((alookup k a).getD 0) ((alookup k b).getD 0))).sum
  let den := (keys.map (fun k => max ((alookup k a).getD 0) ((alookup k b).getD 0))).sum
  if den = 0 then 0 else (num : ℚ) / (den : ℚ)

/-- GameInfo (src/parser.rs), decoded from the header JSON. -/
structure GameInfo where
  server_name : String
  map_name : String
deriving Repr, DecidableEq

/-- ParseError (src/parser.rs). -/
inductive ParseError where
  | netMsgParseError : ParseError
  | unhandledChunkError (msg : String) : ParseError
  | unexpectedParserState (msg : String) : ParseError
deriving Repr, DecidableEq

/-- DDNetSequence (src/parser.rs).  The teehist_path field added by a later
revision of the extractor is not part of src/parser.rs and is not modelled. -/
structure DDNetSequence where
  cid : Int
  start_tick : Int
  /-- exclusive -/
  end_tick : Option Int
  player_name : Option String
  input_vectors : List InputVec
  player_positions : List (Int × Int)
  map_name : Option String
deriving Repr, DecidableEq

/-- DDNetSequence::new. -/
def DDNetSequence.new (cid start_tick : Int) : DDNetSequence :=
  { cid := cid, start_tick := start_tick, end_tick := none, player_name := none,
    input_vectors := [], player_positions := [], map_name := none }

/-- The result of a decoded client net-message, as far as
Parser::handle_net_message distinguishes cases (the byte-level decoder
net_msg::parse_net_msg is an external collaborator; a chunk carries the
decoded result, with none standing for a decode failure). -/
inductive NetMsg where
  | startInfo (name : String) : NetMsg
  | kill : NetMsg
  | setTeam : NetMsg
  | command : NetMsg
  | other : NetMsg
deriving Repr, DecidableEq

/-- The chunk variants Parser::parse_chunk dispatches on (teehistorian
chunks; the framing decoder is an external collaborator).  The variants the
source ignores are merged into the ignored constructor, and unknown variants
(warn and skip) into unknown. -/
inductive Chunk where
  | tickSkip (dt : Int) : Chunk
  | inputNew (cid : Int) (input : InputVec) : Chunk
  | inputDiff (cid : Int) (dinput : InputVec) : Chunk
  | netMessage (cid : Int) (msg : Option NetMsg) : Chunk
  | playerDiff (cid dx dy : Int) : Chunk
  | eos : Chunk
  | consoleCommand (cid : Int) (cmd : String) : Chunk
  | playerOld (cid : Int) : Chunk
  | playerNew (cid x y : Int) : Chunk
  | drop (cid : Int) : Chunk
  | playerReady : Chunk
  | join : Chunk
  | playerSwap : Chunk
  | rejoinVer6 : Chunk
  | teamLoadSuccess : Chunk
  | ignored : Chunk
  | unknown : Chunk
deriving Repr, DecidableEq

/-- Parser (src/parser.rs): the replay state machine. -/
structure Parser where
  finished : Bool
  tick_index : Int
  chunk_index : Nat
  last_cid : Option Int
  current_tick : Tick
  previous_ticks : List Tick
  active_sequences : List (Int × DDNetSequence)
  completed_sequences : List DDNetSequence
  player_names : List (Int × String)
  game_info : Option GameInfo
  cut_kill : Bool
  cut_rescue : Bool
deriving Repr, DecidableEq

/-- Parser::new. -/
def Parser.new (cut_kill cut_rescue : Bool) : Parser :=
  { finished := false, tick_index := 0, chunk_index := 0, last_cid := none,
    current_tick := Tick.new, previous_ticks := [], active_sequences := [],
    completed_sequences := [], player_names := [], game_info := none,
    cut_kill := cut_kill, cut_rescue := cut_rescue }

/-- Parser::parse_header. -/
def Parser.parse_header (p : Parser) (gi : GameInfo) : Parser :=
  { p with game_info := some gi }

/-- The outcome of a chunk-handling step.  ok and err carry the parser state
the Rust object holds afterwards (an Err return leaves the partially mutated
parser in place); panicked models a Rust panic (panic!, assert!, unwrap,
expect), which aborts the process. -/
inductive PResult where
  | ok (p : Parser) : PResult
  | err (p : Parser) (e : ParseError) : PResult
  | panicked : PResult
deriving Repr, DecidableEq

namespace Parser

/-- Parser::handle_tick_skip: skips dt+1 ticks; pushes dt+1 copies of the
current tick (Rust iterates 0..(dt+1), which is empty for dt+1 <= 0); on an
explicit skip clears last_cid. -/
def handle_tick_skip (p : Parser) (dt : Int) (implicit : Bool) : Parser :=
  { p with
    tick_index := p.tick_index + (1 + dt),
    previous_ticks := p.previous_ticks ++ List.replicate (dt + 1).toNat p.current_tick,
    last_cid := if implicit then p.last_cid else none }

/-- Parser::check_implicit_tick: a player event with cid <= last_cid
advances by one tick before the chunk is processed; last_cid is then set to
the cid just processed. -/
def check_implicit_tick (p : Parser) (cid : Int) : Parser :=
  let p' :=
    match p.last_cid with
    | some last => if cid ≤ last then p.handle_tick_skip 0 true else p
    | none => p
  { p' with last_cid := some cid }

/-- Parser::handle_input_new (panics inside Tick::add_init_input when the
cid already has an input vector). -/
def handle_input_new (p : Parser) (cid : Int) (input : InputVec) : PResult :=
  match p.current_tick.add_init_input cid input with
  | none => .panicked
  | some t => .ok { p with current_tick := t }

/-- Parser::handle_input_diff (tolerant: Tick::apply_input_diff drops the
diff when no input vector exists). -/
def handle_input_diff (p : Parser) (cid : Int) (dinput : InputVec) : Parser :=
  { p with current_tick := p.current_tick.apply_input_diff cid dinput }

/-- Parser::handle_drop: clears the input vector, keeps the position. -/
def handle_drop (p : Parser) (cid : Int) : Parser :=
  { p with current_tick :=
      { p.current_tick with input_vectors := aerase cid p.current_tick.input_vectors } }

end Parser

/-- The per-snapshot body of the extraction walk in
Parser::complete_active_sequence: for each history snapshot in the window,
a missing input vector advances start_tick by one and skips the snapshot;
otherwise the input vector and the position are appended (a missing position
there is an expect panic, modelled as none). -/
def extractTicks (cid : Int) : List Tick → DDNetSequence → Option DDNetSequence
  | [], s => some s
  | t :: rest, s =>
    match alookup cid t.input_vectors with
    | none => extractTicks cid rest { s with start_tick := s.start_tick + 1 }
    | some iv =>
      match alookup cid t.player_positions with
      | none => none
      | some pos =>
        extractTicks cid rest
          { s with input_vectors := s.input_vectors ++ [iv],
                   player_positions := s.player_positions ++ [pos] }

/-- windows(2) consecutive differences, as in the sanity check of
Parser::complete_active_sequence: f applied to each adjacent pair. -/
def consecDiffs (l : List (Int × Int)) (f : Int × Int → Int) : List Int :=
  (l.zip l.tail).map (fun w => f w.2 - f w.1)

namespace Parser

/-- The sequence being completed, after end_tick, player_name and map_name
are set (lines 335-338 of src/parser.rs). -/
def completion_seq (p2 : Parser) (pname : String) (sequence : DDNetSequence) : DDNetSequence :=
  { sequence with
    end_tick := some p2.tick_index,
    player_name := some pname,
    map_name := p2.game_info.map GameInfo.map_name }

/-- The history window the completion walks:
previous_ticks.iter().skip(start_tick).take(end_tick - start_tick).
start_tick is cast with Int.toNat where the source casts to usize; in every
reachable state start_tick is nonnegative (part of the parser invariant
proved below), where the two casts agree. -/
def completion_window (p2 : Parser) (sequence : DDNetSequence) : List Tick :=
  (p2.previous_ticks.drop sequence.start_tick.toNat).take
    (p2.tick_index - sequence.start_tick).toNat

/-- The sanity check and emission at the end of
Parser::complete_active_sequence: assert the maximum signed consecutive
position delta (windows(2).max().unwrap(): panic when there are fewer than
two positions) is < 500 in both coordinates; drop sequences with fewer than
three input vectors; otherwise append to completed_sequences. -/
def complete_emit (p2 : Parser) (seq2 : DDNetSequence) : PResult :=
  match (consecDiffs seq2.player_positions Prod.fst).max?,
        (consecDiffs seq2.player_positions Prod.snd).max? with
  | some mvx, some mvy =>
    if mvy < 500 ∧ mvx < 500 then
      if seq2.input_vectors.length < 3 then .ok p2
      else .ok { p2 with completed_sequences := p2.completed_sequences ++ [seq2] }
    else .panicked
  | _, _ => .panicked

/-- The part of Parser::complete_active_sequence after the drop/reopen step
(p2 is the state at that point): discard silently when
start_tick >= tick_index; set end_tick, player_name (unwrap: panic when no
StartInfo was seen for the cid) and map_name; walk the history window; then
check and emit. -/
def complete_finish (p2 : Parser) (cid : Int) (sequence : DDNetSequence) : PResult :=
  if sequence.start_tick ≥ p2.tick_index then .ok p2
  else
    match alookup cid p2.player_names with
    | none => .panicked
    | some pname =>
      match extractTicks cid (completion_window p2 sequence) (completion_seq p2 pname sequence) with
      | none => .panicked
      | some seq2 => complete_emit p2 seq2

/-- Parser::complete_active_sequence.  Faithful to the source order:
remove the active sequence (Err if absent); on drop_player remove the
position (expect: panic when absent), otherwise install a fresh sequence
starting two ticks later; then finish as in complete_finish. -/
def complete_active_sequence (p0 : Parser) (cid : Int) (drop_player : Bool) : PResult :=
  match alookup cid p0.active_sequences with
  | none => .err p0 (.unexpectedParserState "coulnt find expected active sequence")
  | some sequence =>
    let p1 := { p0 with active_sequences := aerase cid p0.active_sequences }
    if drop_player then
      match p1.current_tick.remove_player_position cid with
      | none => .panicked
      | some t => complete_finish { p1 with current_tick := t } cid sequence
    else
      let fresh := DDNetSequence.new cid (p1.tick_index + 2)
      complete_finish { p1 with active_sequences := ains cid fresh p1.active_sequences }
        cid sequence

/-- Parser::handle_net_message, over the decoded message (none stands for a
decode failure, which the source turns into Err(NetMsgParseError)). -/
def handle_net_message (p : Parser) (cid : Int) (msg : Option NetMsg) : PResult :=
  match msg with
  | none => .err p .netMsgParseError
  | some (.startInfo name) => .ok { p with player_names := ains cid name p.player_names }
  | some .kill => if p.cut_kill then p.complete_active_sequence cid false else .ok p
  | some _ => .ok p

/-- Parser::handle_player_new: check the implicit tick, open an active
sequence at the (possibly advanced) tick_index, record the initial position
(assert: panic when a position already exists for the cid). -/
def handle_player_new (p0 : Parser) (cid x y : Int) : PResult :=
  let p := p0.check_implicit_tick cid
  let opened := DDNetSequence.new cid p.tick_index
  let p' := { p with active_sequences := ains cid opened p.active_sequences }
  match p'.current_tick.add_init_position cid x y with
  | none => .panicked
  | some t => .ok { p' with current_tick := t }

/-- The body of Parser::handle_player_diff after the implicit-tick check:
a diff with dx > 500 or dy > 500 (signed, not absolute) looks up the active
sequence (unwrap: panic when absent) and, when tick_index >= its start_tick,
completes it (teleport cut); in every case the diff is then applied to the
current tick (expect: panic when the position is absent). -/
def player_diff_core (p : Parser) (cid dx dy : Int) : PResult :=
  let applyDiff : Parser → PResult := fun q =>
    match q.current_tick.apply_position_diff cid dx dy with
    | none => .panicked
    | some t => .ok { q with current_tick := t }
  if dx > 500 ∨ dy > 500 then
    match alookup cid p.active_sequences with
    | none => .panicked
    | some seq =>
      if p.tick_index ≥ seq.start_tick then
        match p.complete_active_sequence cid false with
        | .ok p' => applyDiff p'
        | r => r
      else applyDiff p
  else applyDiff p

/-- Parser::handle_player_diff: implicit-tick check first, then the body. -/
def handle_player_diff (p : Parser) (cid dx dy : Int) : PResult :=
  player_diff_core (p.check_implicit_tick cid) cid dx dy

/-- Parser::handle_player_old: implicit-tick check, then complete the active
sequence with drop_player = true. -/
def handle_player_old (p : Parser) (cid : Int) : PResult :=
  (p.check_implicit_tick cid).complete_active_sequence cid true

/-- Parser::handle_console_command: server commands (cid = -1) are ignored;
with cut_rescue enabled the command "r" completes the active sequence. -/
def handle_console_command (p : Parser) (cid : Int) (cmd : String) : PResult :=
  if cid = -1 then .ok p
  else if p.cut_rescue ∧ cmd = "r" then p.complete_active_sequence cid false
  else .ok p

/-- The completion loop of Parser::handle_eos over the collected cids; an
Err from a completion stops the loop (Rust ?), keeping the state so far. -/
def completeAll (p : Parser) : List Int → PResult
  | [] => .ok p
  | cid :: rest =>
    match p.complete_active_sequence cid true with
    | .ok p' => completeAll p' rest
    | r => r

/-- Parser::handle_eos: set finished, then complete every remaining active
sequence with drop_player = true (the source iterates the HashMap keys in
arbitrary order; the association-list order is one determinization). -/
def handle_eos (p : Parser) : PResult :=
  let p' := { p with finished := true }
  completeAll p' (p'.active_sequences.map Prod.fst)

/-- Parser::parse_chunk.  The assert on finished is a panic; on Ok the chunk
index is incremented; Err returns keep the partially mutated state. -/
def parse_chunk (p : Parser) (c : Chunk) : PResult :=
  if p.finished then .panicked
  else
    let r : PResult :=
      match c with
      | .tickSkip dt => .ok (p.handle_tick_skip dt false)
      | .inputNew cid input => p.handle_input_new cid input
      | .inputDiff cid dinput => .ok (p.handle_input_diff cid dinput)
      | .netMessage cid msg => p.handle_net_message cid msg
      | .playerDiff cid dx dy => p.handle_player_diff cid dx dy
      | .eos => p.handle_eos
      | .consoleCommand cid cmd => p.handle_console_command cid cmd
      | .playerOld cid => p.handle_player_old cid
      | .playerNew cid x y => p.handle_player_new cid x y
      | .drop cid => .ok (p.handle_drop cid)
      | .playerSwap => .err p (.unhandledChunkError "Player Swap")
      | .rejoinVer6 => .err p (.unhandledChunkError "RejoinVer6")
      | .teamLoadSuccess => .err p (.unhandledChunkError "team load")
      | _ => .ok p
    match r with
    | .ok p' => .ok { p' with chunk_index := p'.chunk_index + 1 }
    | r => r

end Parser

/-- Feeding a list of chunks to the parser in order, stopping at the first
Err (which keeps its state) or panic. -/
def runChunks (p : Parser) : List Chunk → PResult
  | [] => .ok p
  | c :: rest =>
    match p.parse_chunk c with
    | .ok p' => runChunks p' rest
    | r => r

/-- The chunk loop of Extractor::get_ddnet_sequences: feed chunks until the
stream ends or a chunk fails; on a ParseError log, stop, and return the
sequences completed so far; a panic (none) aborts the process instead. -/
def extractLoop (p : Parser) : List Chunk → Option (List DDNetSequence)
  | [] => some p.completed_sequences
  | c :: rest =>
    match p.parse_chunk c with
    | .ok p' => extractLoop p' rest
    | .err p' _ => some p'.completed_sequences
    | .panicked => none

/-- Well-formedness of a chunk as produced by the teehistorian framing
decoder: a TickSkip carries a nonnegative dt. -/
def chunkWF : Chunk → Bool
  | .tickSkip dt => decide (0 ≤ dt)
  | _ => true

/-- The length invariant of an emitted sequence: end_tick is set, and the
number of input vectors and of positions both equal end_tick - start_tick
(start_tick as adjusted during extraction). -/
def SeqLenInv (s : DDNetSequence) : Prop :=
  ∃ e, s.end_tick = some e ∧
    s.input_vectors.length = s.player_positions.length ∧
    (s.input_vectors.length : Int) = e - s.start_tick

/-- The step bound the completion assert actually enforces on an emitted
sequence: every consecutive pair of recorded positions has signed delta
strictly below 500 in both coordinates (no bound on negative deltas). -/
def SeqStepInv (s : DDNetSequence) : Prop :=
  ∀ w ∈ s.player_positions.zip s.player_positions.tail,
    w.2.1 - w.1.1 < 500 ∧ w.2.2 - w.1.2 < 500

/-- The parser state invariant: tick_index is nonnegative and counts the
history snapshots, active sequences start at nonnegative ticks with empty
accumulators, and every completed sequence satisfies the length and step
invariants. -/
def ParserInv (p : Parser) : Prop :=
  0 ≤ p.tick_index ∧
  p.previous_ticks.length = p.tick_index.toNat ∧
  (∀ x ∈ p.active_sequences,
      0 ≤ x.2.start_tick ∧ x.2.input_vectors = [] ∧ x.2.player_positions = []) ∧
  (∀ s ∈ p.completed_sequences, SeqLenInv s ∧ SeqStepInv s)

/-- A predicate on the parser state holding across a step result: it must
hold for the retained state on ok and on err (a panic aborts the process, so
there is no retained state). -/
def ResultHolds (P : Parser → Prop) : PResult → Prop
  | .ok q => P q
  | .err q _ => P q
  | .panicked => True

/-- The all-zero input vector, used by the concrete streams below. -/
def zeroInput : InputVec := List.replicate 10 0

/-- A small well-formed stream: one player joins with a name and an input,
four ticks elapse, end of stream.  Yields one completed 4-tick sequence. -/
def sampleStream : List Chunk :=
  [.playerNew 0 10 20, .netMessage 0 (some (.startInfo "a")), .inputNew 0 zeroInput,
   .tickSkip 0, .tickSkip 0, .tickSkip 0, .tickSkip 0, .eos]

/-- A stream in which a PlayerDiff with dx = -600 (well beyond the 500
threshold in absolute value, but not positive) lands inside the active
sequence: the parser applies it and the completed sequence records the
-600 step. -/
def teleportStream : List Chunk :=
  [.playerNew 0 0 0, .netMessage 0 (some (.startInfo "a")), .inputNew 0 zeroInput,
   .tickSkip 0, .playerDiff 0 (-600) 0, .tickSkip 0, .tickSkip 0, .tickSkip 0, .eos]

/-- Prefix for the implicit-tick scenario: a player joins (position becomes
available) and an explicit TickSkip clears last_cid. -/
def implicitPrefix : List Chunk := [.playerNew 1 0 0, .tickSkip 0]

/-- The two PlayerDiff chunks of the implicit-tick scenario. -/
def implicitDiffs : List Chunk := [.playerDiff 1 1 0, .playerDiff 1 1 0]

/-- A parser state whose current tick already stores an input vector for
cid 0 (as after parsing one InputNew chunk). -/
def dupInputParser : Parser :=
  { Parser.new false false with
    current_tick := { input_vectors := [(0, zeroInput)], player_positions := [] } }

/-! Helper lemmas -/

theorem alookup_ains_self {κ β : Type} [DecidableEq κ] (k : κ) (v : β) (l : List (κ × β)) :
    alookup k (ains k v l) = some v := by
  simp [ains, alookup]

theorem mem_aerase {κ β : Type} [DecidableEq κ] {k : κ} {l : List (κ × β)} {e : κ × β}
    (h : e ∈ aerase k l) : e ∈ l := by
  unfold aerase at h
  exact List.mem_of_mem_filter h

theorem mem_ains {κ β : Type} [DecidableEq κ] {k : κ} {v : β} {l : List (κ × β)} {e : κ × β}
    (h : e ∈ ains k v l) : e = (k, v) ∨ e ∈ l := by
  unfold ains at h
  rcases List.mem_cons.mp h with h | h
  · exact Or.inl h
  · exact Or.inr (mem_aerase h)

theorem alookup_mem {κ β : Type} [DecidableEq κ] {k : κ} {v : β} :
    ∀ {l : List (κ × β)}, alookup k l = some v → (k, v) ∈ l := by
  intro l
  induction l with
  | nil => intro h; simp [alookup] at h
  | cons e rest ih =>
    intro h
    rcases e with ⟨a, b⟩
    by_cases hk : a = k
    · simp only [alookup, hk, if_pos] at h
      rw [Option.some_inj] at h
      subst hk
      subst h
      exact List.mem_cons_self _ _
    · simp only [alookup, hk, if_neg, if_false] at h
      exact List.mem_cons_of_mem _ (ih h)

theorem wrap32_modEq (x : Int) : Int.ModEq (2 ^ 32) (wrap32 x) x := by
  have h : Int.ModEq (2 ^ 32) ((x + 2 ^ 31) % 2 ^ 32) (x + 2 ^ 31) :=
    Int.emod_emod_of_dvd _ dvd_rfl
  have h2 := h.sub_right (2 ^ 31)
  simpa [wrap32] using h2

theorem le_foldl_max (as : List Int) : ∀ a b : Int, b ≤ a → b ≤ as.foldl max a := by
  induction as with
  | nil => intro a b hb; simpa using hb
  | cons c cs ih =>
    intro a b hb
    simp only [List.foldl_cons]
    exact ih (max a c) b (le_trans hb (le_max_left a c))

theorem mem_le_foldl_max (as : List Int) : ∀ a x : Int, x ∈ as → x ≤ as.foldl max a := by
  induction as with
  | nil => intro a x hx; simp at hx
  | cons c cs ih =>
    intro a x hx
    simp only [List.foldl_cons]
    rcases List.mem_cons.mp hx with hx | hx
    · exact le_foldl_max cs (max a c) x (hx ▸ le_max_right a c)
    · exact ih (max a c) x hx

theorem le_of_max?_eq_some {l : List Int} {m : Int} (h : l.max? = some m) :
    ∀ x ∈ l, x ≤ m := by
  cases l with
  | nil => simp [List.max?] at h
  | cons a as =>
    simp only [List.max?] at h
    rw [Option.some_inj] at h
    intro x hx
    rcases List.mem_cons.mp hx with hx | hx
    · exact h ▸ hx ▸ le_foldl_max as a a le_rfl
    · exact h ▸ mem_le_foldl_max as a x hx

/-- A state satisfying the invariant can be replaced by any state with the
same invariant-relevant fields. -/
theorem ParserInv_of_eq {p q : Parser} (h : ParserInv p)
    (e1 : q.tick_index = p.tick_index) (e2 : q.previous_ticks = p.previous_ticks)
    (e3 : q.active_sequences = p.active_sequences)
    (e4 : q.completed_sequences = p.completed_sequences) : ParserInv q := by
  unfold ParserInv at h ⊢
  rw [e1, e2, e3, e4]
  exact h

theorem handle_tick_skip_inv (p : Parser) (dt : Int) (im : Bool) (hdt : 0 ≤ dt)
    (h : ParserInv p) : ParserInv (p.handle_tick_skip dt im) := by
  obtain ⟨h0, h1, h2, h3⟩ := h
  refine ⟨?_, ?_, h2, h3⟩
  · simp only [Parser.handle_tick_skip]
    omega
  · simp only [Parser.handle_tick_skip, List.length_append, List.length_replicate, h1]
    omega

theorem check_implicit_tick_inv (p : Parser) (cid : Int) (h : ParserInv p) :
    ParserInv (p.check_implicit_tick cid) := by
  unfold Parser.check_implicit_tick
  rcases hl : p.last_cid with _ | last
  · exact ParserInv_of_eq h rfl rfl rfl rfl
  · by_cases hc : cid ≤ last
    · simp only [if_pos hc]
      exact ParserInv_of_eq (handle_tick_skip_inv p 0 true le_rfl h) rfl rfl rfl rfl
    · simp only [if_neg hc]
      exact ParserInv_of_eq h rfl rfl rfl rfl

/-- The bookkeeping of the extraction walk: each snapshot either advances
start_tick by one or appends one input vector and one position; all other
fields are preserved. -/
theorem extractTicks_spec (cid : Int) :
    ∀ (ts : List Tick) (s s' : DDNetSequence), extractTicks cid ts s = some s' →
      s'.end_tick = s.end_tick ∧
      s.start_tick ≤ s'.start_tick ∧
      (s'.start_tick - s.start_tick) + (s'.input_vectors.length : Int)
        = (s.input_vectors.length : Int) + ts.length ∧
      s'.input_vectors.length + s.player_positions.length
        = s'.player_positions.length + s.input_vectors.length := by
  intro ts
  induction ts with
  | nil =>
    intro s s' h
    simp only [extractTicks, Option.some_inj] at h
    subst h
    refine ⟨rfl, le_rfl, by simp, by omega⟩
  | cons t rest ih =>
    intro s s' h
    simp only [extractTicks] at h
    cases hin : alookup cid t.input_vectors with
    | none =>
      rw [hin] at h
      obtain ⟨e1, e2, e3, e4⟩ := ih _ _ h
      have e1' : s'.end_tick = s.end_tick := e1
      have e2' : s.start_tick + 1 ≤ s'.start_tick := e2
      have e3' : (s'.start_tick - (s.start_tick + 1)) + (s'.input_vectors.length : Int)
          = (s.input_vectors.length : Int) + rest.length := e3
      have e4' : s'.input_vectors.length + s.player_positions.length
          = s'.player_positions.length + s.input_vectors.length := e4
      refine ⟨e1', by omega, ?_, e4'⟩
      simp only [List.length_cons]
      push_cast
      omega
    | some iv =>
      rw [hin] at h
      cases hpos : alookup cid t.player_positions with
      | none => rw [hpos] at h; exact absurd h (by simp)
      | some pos =>
        rw [hpos] at h
        obtain ⟨e1, e2, e3, e4⟩ := ih _ _ h
        have e1' : s'.end_tick = s.end_tick := e1
        have e2' : s.start_tick ≤ s'.start_tick := e2
        have e3' : (s'.start_tick - s.start_tick) + (s'.input_vectors.length : Int)
            = ((s.input_vectors ++ [iv]).length : Int) + rest.length := e3
        have e4' : s'.input_vectors.length + (s.player_positions ++ [pos]).length
            = s'.player_positions.length + (s.input_vectors ++ [iv]).length := e4
        clear e3 e4
        simp only [List.length_append, List.length_cons, List.length_nil] at e3' e4'
        refine ⟨e1', e2', ?_, ?_⟩
        · simp only [List.length_cons]
          push_cast at e3' ⊢
          omega
        · omega

/-- The emission step preserves the invariant: the appended sequence
satisfies the length invariant by hypothesis and the step invariant by the
assert guard. -/
theorem complete_emit_inv (p2 : Parser) (seq2 : DDNetSequence) (h : ParserInv p2)
    (hlen : SeqLenInv seq2) : ResultHolds ParserInv (Parser.complete_emit p2 seq2) := by
  obtain ⟨h0, h1, h2, h3⟩ := h
  unfold Parser.complete_emit
  cases hmx : (consecDiffs seq2.player_positions Prod.fst).max? with
  | none => trivial
  | some mvx =>
    cases hmy : (consecDiffs seq2.player_positions Prod.snd).max? with
    | none => trivial
    | some mvy =>
      by_cases hg : mvy < 500 ∧ mvx < 500
      · simp only [if_pos hg]
        by_cases hshort : seq2.input_vectors.length < 3
        · simp only [if_pos hshort]
          exact ⟨h0, h1, h2, h3⟩
        · simp only [if_neg hshort]
          refine ⟨h0, h1, h2, ?_⟩
          intro s hs
          rcases List.mem_append.mp hs with hs | hs
          · exact h3 s hs
          · have hs2 : s = seq2 := by simpa using hs
            subst hs2
            refine ⟨hlen, ?_⟩
            intro w hw
            constructor
            · have hmem : w.2.1 - w.1.1 ∈ consecDiffs s.player_positions Prod.fst :=
                List.mem_map_of_mem (fun w => Prod.fst w.2 - Prod.fst w.1) hw
              exact lt_of_le_of_lt (le_of_max?_eq_some hmx _ hmem) hg.2
            · have hmem : w.2.2 - w.1.2 ∈ consecDiffs s.player_positions Prod.snd :=
                List.mem_map_of_mem (fun w => Prod.snd w.2 - Prod.snd w.1) hw
              exact lt_of_le_of_lt (le_of_max?_eq_some hmy _ hmem) hg.1
      · simp only [if_neg hg]
        trivial

/-- The finishing step preserves the invariant, given the invariant for the
state after the drop/reopen step and the freshness of the removed sequence. -/
theorem complete_finish_inv (p2 : Parser) (cid : Int) (sequence : DDNetSequence)
    (h : ParserInv p2) (hs0 : 0 ≤ sequence.start_tick)
    (hsin : sequence.input_vectors = []) (hspos : sequence.player_positions = []) :
    ResultHolds ParserInv (Parser.complete_finish p2 cid sequence) := by
  unfold Parser.complete_finish
  by_cases hge : sequence.start_tick ≥ p2.tick_index
  · simp only [if_pos hge]
    exact h
  · simp only [if_neg hge]
    have hlt : sequence.start_tick < p2.tick_index := by omega
    split
    · trivial
    · rename_i pname hpn
      split
      · trivial
      · rename_i seq2 hext
        obtain ⟨h0, h1, h2, h3⟩ := h
        obtain ⟨e1, e2, e3, e4⟩ := extractTicks_spec cid _ _ _ hext
        have hwin : ((Parser.completion_window p2 sequence).length : Int)
            = p2.tick_index - sequence.start_tick := by
          simp only [Parser.completion_window, List.length_take, List.length_drop, h1]
          omega
        have e1' : seq2.end_tick = some p2.tick_index := e1
        have e2' : sequence.start_tick ≤ seq2.start_tick := e2
        have e3' : (seq2.start_tick - sequence.start_tick) + (seq2.input_vectors.length : Int)
            = (sequence.input_vectors.length : Int)
              + (Parser.completion_window p2 sequence).length := e3
        have e4' : seq2.input_vectors.length + sequence.player_positions.length
            = seq2.player_positions.length + sequence.input_vectors.length := e4
        rw [hsin] at e3' e4'
        rw [hspos] at e4'
        have hlen : SeqLenInv seq2 := by
          refine ⟨p2.tick_index, e1', ?_, ?_⟩
          · simp only [List.length_nil] at e4'
            omega
          · simp only [List.length_nil] at e3'
            push_cast at e3'
            omega
        exact complete_emit_inv p2 seq2 ⟨h0, h1, h2, h3⟩ hlen

/-- Parser::complete_active_sequence preserves the parser invariant on its
ok and err outcomes. -/
theorem complete_active_sequence_inv (p : Parser) (cid : Int) (dp : Bool) (h : ParserInv p) :
    ResultHolds ParserInv (p.complete_active_sequence cid dp) := by
  obtain ⟨h0, h1, h2, h3⟩ := h
  unfold Parser.complete_active_sequence
  cases hseq : alookup cid p.active_sequences with
  | none => exact ⟨h0, h1, h2, h3⟩
  | some sequence =>
    have hmem := alookup_mem hseq
    obtain ⟨hs0, hsin, hspos⟩ := h2 _ hmem
    have hact : ∀ x ∈ aerase cid p.active_sequences,
        0 ≤ x.2.start_tick ∧ x.2.input_vectors = [] ∧ x.2.player_positions = [] :=
      fun x hx => h2 x (mem_aerase hx)
    by_cases hdp : dp = true
    · subst hdp
      simp only [if_pos]
      cases hrm : Tick.remove_player_position p.current_tick cid with
      | none => trivial
      | some t =>
        exact complete_finish_inv _ cid sequence ⟨h0, h1, hact, h3⟩ hs0 hsin hspos
    · have hdp' : dp = false := by
        cases dp
        · rfl
        · exact absurd rfl hdp
      subst hdp'
      simp only [Bool.false_eq_true, if_false]
      refine complete_finish_inv _ cid sequence ⟨h0, h1, ?_, h3⟩ hs0 hsin hspos
      intro x hx
      rcases mem_ains hx with hx | hx
      · subst hx
        refine ⟨?_, rfl, rfl⟩
        show (0 : Int) ≤ p.tick_index + 2
        omega
      · exact hact x hx

theorem handle_input_new_inv (p : Parser) (cid : Int) (input : InputVec) (h : ParserInv p) :
    ResultHolds ParserInv (p.handle_input_new cid input) := by
  unfold Parser.handle_input_new
  cases Tick.add_init_input p.current_tick cid input with
  | none => trivial
  | some t => exact ParserInv_of_eq h rfl rfl rfl rfl

theorem handle_net_message_inv (p : Parser) (cid : Int) (msg : Option NetMsg)
    (h : ParserInv p) : ResultHolds ParserInv (p.handle_net_message cid msg) := by
  unfold Parser.handle_net_message
  cases msg with
  | none => exact h
  | some m =>
    cases m with
    | startInfo name => exact ParserInv_of_eq h rfl rfl rfl rfl
    | kill =>
      by_cases hck : p.cut_kill = true
      · simp only [if_pos hck]
        exact complete_active_sequence_inv p cid false h
      · simp only [if_neg hck]
        exact h
    | setTeam => exact h
    | command => exact h
    | other => exact h

theorem handle_player_new_inv (p : Parser) (cid x y : Int) (h : ParserInv p) :
    ResultHolds ParserInv (p.handle_player_new cid x y) := by
  obtain ⟨h0, h1, h2, h3⟩ := check_implicit_tick_inv p cid h
  simp only [Parser.handle_player_new]
  split
  · trivial
  · rename_i t hadd
    refine ⟨h0, h1, ?_, h3⟩
    intro z hz
    rcases mem_ains hz with hz | hz
    · subst hz
      exact ⟨h0, rfl, rfl⟩
    · exact h2 z hz

theorem applyDiff_holds (q : Parser) (cid dx dy : Int) (h : ParserInv q) :
    ResultHolds ParserInv
      (match q.current_tick.apply_position_diff cid dx dy with
       | none => PResult.panicked
       | some t => PResult.ok { q with current_tick := t }) := by
  cases q.current_tick.apply_position_diff cid dx dy with
  | none => trivial
  | some t => exact ParserInv_of_eq h rfl rfl rfl rfl

theorem player_diff_core_inv (q : Parser) (cid dx dy : Int) (h : ParserInv q) :
    ResultHolds ParserInv (Parser.player_diff_core q cid dx dy) := by
  simp only [Parser.player_diff_core]
  split
  · split
    · trivial
    · rename_i seq hseq
      split
      · cases hc : q.complete_active_sequence cid false with
        | ok p' =>
          have hinv := complete_active_sequence_inv q cid false h
          rw [hc] at hinv
          exact applyDiff_holds p' cid dx dy hinv
        | err p' e =>
          have hinv := complete_active_sequence_inv q cid false h
          rw [hc] at hinv
          exact hinv
        | panicked => trivial
      · exact applyDiff_holds q cid dx dy h
  · exact applyDiff_holds q cid dx dy h

theorem handle_player_diff_inv (p : Parser) (cid dx dy : Int) (h : ParserInv p) :
    ResultHolds ParserInv (p.handle_player_diff cid dx dy) := by
  unfold Parser.handle_player_diff
  exact player_diff_core_inv _ cid dx dy (check_implicit_tick_inv p cid h)

theorem handle_player_old_inv (p : Parser) (cid : Int) (h : ParserInv p) :
    ResultHolds ParserInv (p.handle_player_old cid) := by
  unfold Parser.handle_player_old
  exact complete_active_sequence_inv _ cid true (check_implicit_tick_inv p cid h)

theorem handle_console_command_inv (p : Parser) (cid : Int) (cmd : String)
    (h : ParserInv p) : ResultHolds ParserInv (p.handle_console_command cid cmd) := by
  unfold Parser.handle_console_command
  by_cases hcid : cid = -1
  · simp only [if_pos hcid]
    exact h
  · simp only [if_neg hcid]
    by_cases hr : p.cut_rescue = true ∧ cmd = "r"
    · simp only [if_pos hr]
      exact complete_active_sequence_inv p cid false h
    · simp only [if_neg hr]
      exact h

theorem completeAll_inv : ∀ (cids : List Int) (p : Parser), ParserInv p →
    ResultHolds ParserInv (Parser.completeAll p cids) := by
  intro cids
  induction cids with
  | nil => intro p h; exact h
  | cons c rest ih =>
    intro p h
    unfold Parser.completeAll
    cases hc : p.complete_active_sequence c true with
    | ok p' =>
      have hinv := complete_active_sequence_inv p c true h
      rw [hc] at hinv
      exact ih p' hinv
    | err p' e =>
      have hinv := complete_active_sequence_inv p c true h
      rw [hc] at hinv
      exact hinv
    | panicked => trivial

theorem handle_eos_inv (p : Parser) (h : ParserInv p) :
    ResultHolds ParserInv p.handle_eos := by
  unfold Parser.handle_eos
  exact completeAll_inv _ _ (ParserInv_of_eq h rfl rfl rfl rfl)

/-- The chunk-index bump on an Ok result preserves the invariant. -/
theorem ResultHolds_bump (r : PResult) : ResultHolds ParserInv r →
    ResultHolds ParserInv
      (match r with
       | .ok p' => .ok { p' with chunk_index := p'.chunk_index + 1 }
       | r => r) := by
  cases r with
  | ok q => exact fun hr => ParserInv_of_eq hr rfl rfl rfl rfl
  | err q e => exact fun hr => hr
  | panicked => exact fun _ => trivial

/-- Parser::parse_chunk preserves the parser invariant on its ok and err
outcomes, for well-formed chunks. -/
theorem parse_chunk_inv (p : Parser) (c : Chunk) (hwf : chunkWF c = true)
    (h : ParserInv p) : ResultHolds ParserInv (p.parse_chunk c) := by
  unfold Parser.parse_chunk
  by_cases hf : p.finished = true
  · simp only [if_pos hf]
    trivial
  · simp only [if_neg hf]
    refine ResultHolds_bump _ ?_
    cases c with
    | tickSkip dt =>
      have hdt : 0 ≤ dt := by simpa [chunkWF] using hwf
      exact handle_tick_skip_inv p dt false hdt h
    | inputNew cid input => exact handle_input_new_inv p cid input h
    | inputDiff cid dinput => exact ParserInv_of_eq h rfl rfl rfl rfl
    | netMessage cid msg => exact handle_net_message_inv p cid msg h
    | playerDiff cid dx dy => exact handle_player_diff_inv p cid dx dy h
    | eos => exact handle_eos_inv p h
    | consoleCommand cid cmd => exact handle_console_command_inv p cid cmd h
    | playerOld cid => exact handle_player_old_inv p cid h
    | playerNew cid x y => exact handle_player_new_inv p cid x y h
    | drop cid => exact ParserInv_of_eq h rfl rfl rfl rfl
    | playerSwap => exact h
    | rejoinVer6 => exact h
    | teamLoadSuccess => exact h
    | playerReady => exact h
    | join => exact h
    | ignored => exact h
    | unknown => exact h

/-- Running any well-formed chunk stream preserves the parser invariant. -/
theorem runChunks_inv : ∀ (cs : List Chunk) (p : Parser),
    (∀ c ∈ cs, chunkWF c = true) → ParserInv p →
    ResultHolds ParserInv (runChunks p cs) := by
  intro cs
  induction cs with
  | nil => intro p _ h; exact h
  | cons c rest ih =>
    intro p hwf h
    unfold runChunks
    cases hc : p.parse_chunk c with
    | ok p' =>
      have hinv := parse_chunk_inv p c (hwf c (by simp)) h
      rw [hc] at hinv
      exact ih p' (fun d hd => hwf d (List.mem_cons_of_mem _ hd)) hinv
    | err p' e =>
      have hinv := parse_chunk_inv p c (hwf c (by simp)) h
      rw [hc] at hinv
      exact hinv
    | panicked => trivial

/-- The freshly constructed parser satisfies the invariant. -/
theorem parser_new_inv (ck cr : Bool) : ParserInv (Parser.new ck cr) := by
  refine ⟨le_rfl, rfl, ?_, ?_⟩ <;> intro x hx <;> simp [Parser.new] at hx

theorem alookup_apply_input_diff (t : Tick) (cid : Int) (d : InputVec) (a : InputVec)
    (h : alookup cid t.input_vectors = some a) :
    alookup cid (t.apply_input_diff cid d).input_vectors
      = some (List.zipWith wrapAdd a d) := by
  unfold Tick.apply_input_diff
  rw [h]
  exact alookup_ains_self cid _ t.input_vectors

theorem alookup_fold_diffs (cid : Int) :
    ∀ (ds : List InputVec) (t : Tick) (a : InputVec),
      alookup cid t.input_vectors = some a →
      alookup cid ((ds.foldl (fun t d => t.apply_input_diff cid d) t).input_vectors)
        = some (ds.foldl (fun x d => List.zipWith wrapAdd x d) a) := by
  intro ds
  induction ds with
  | nil => intro t a h; exact h
  | cons d rest ih =>
    intro t a h
    simp only [List.foldl_cons]
    exact ih _ _ (alookup_apply_input_diff t cid d a h)

theorem wfold_length : ∀ (ds : List InputVec) (a : InputVec), a.length = 10 →
    (∀ d ∈ ds, d.length = 10) →
    (ds.foldl (fun x d => List.zipWith wrapAdd x d) a).length = 10 := by
  intro ds
  induction ds with
  | nil => intro a ha _; exact ha
  | cons d rest ih =>
    intro a ha hds
    simp only [List.foldl_cons]
    refine ih _ ?_ (fun x hx => hds x (List.mem_cons_of_mem _ hx))
    rw [List.length_zipWith, ha, hds d (by simp)]
    exact min_self 10

theorem wfold_modEq : ∀ (ds : List InputVec) (a : InputVec), a.length = 10 →
    (∀ d ∈ ds, d.length = 10) → ∀ i, i < 10 →
    Int.ModEq (2 ^ 32) ((ds.foldl (fun x d => List.zipWith wrapAdd x d) a).getD i 0)
      (a.getD i 0 + (ds.map (fun d => d.getD i 0)).sum) := by
  intro ds
  induction ds with
  | nil =>
    intro a ha hds i hi
    simp only [List.foldl_nil, List.map_nil, List.sum_nil, add_zero]
    exact Int.ModEq.refl _
  | cons d rest ih =>
    intro a ha hds i hi
    simp only [List.foldl_cons, List.map_cons, List.sum_cons]
    have hd : d.length = 10 := hds d (by simp)
    have hzlen : (List.zipWith wrapAdd a d).length = 10 := by
      rw [List.length_zipWith, ha, hd]
      simp
    have hstep := ih (List.zipWith wrapAdd a d) hzlen
      (fun x hx => hds x (List.mem_cons_of_mem _ hx)) i hi
    have hzw : (List.zipWith wrapAdd a d).getD i 0 = wrapAdd (a.getD i 0) (d.getD i 0) := by
      rw [List.getD_eq_getElem _ _ (by omega : i < (List.zipWith wrapAdd a d).length),
          List.getD_eq_getElem _ _ (by omega : i < a.length),
          List.getD_eq_getElem _ _ (by omega : i < d.length)]
      exact List.getElem_zipWith
    rw [hzw] at hstep
    refine hstep.trans ?_
    have hw : Int.ModEq (2 ^ 32) (wrapAdd (a.getD i 0) (d.getD i 0))
        (a.getD i 0 + d.getD i 0) := wrap32_modEq _
    have := hw.add_right ((rest.map (fun d => d.getD i 0)).sum)
    refine this.trans ?_
    rw [add_assoc]

/-! The claims -/

/-- C10: For every well-formed chunk stream the parser runs to completion
on, the number of snapshots in the tick history equals tick_index, so
tick_history[t] is defined for every t in [0, tick_index). -/
theorem tick_history_length_invariant (ck cr : Bool) (cs : List Chunk) (p : Parser)
    (hwf : ∀ c ∈ cs, chunkWF c = true)
    (hrun : runChunks (Parser.new ck cr) cs = .ok p) :
    0 ≤ p.tick_index ∧ p.previous_ticks.length = p.tick_index.toNat ∧
    ∀ t : Nat, t < p.tick_index.toNat → p.previous_ticks.get? t ≠ none := by
  have hinv := runChunks_inv cs (Parser.new ck cr) hwf (parser_new_inv ck cr)
  rw [hrun] at hinv
  obtain ⟨h0, h1, -, -⟩ := hinv
  refine ⟨h0, h1, ?_⟩
  intro t ht heq
  rw [List.get?_eq_none] at heq
  omega

/-- Witness for C10 at the concrete sample stream. -/
theorem tick_history_length_invariant_witness :
    (∀ c ∈ sampleStream, chunkWF c = true) ∧
    ∃ p, runChunks (Parser.new false false) sampleStream = .ok p ∧
      (0 ≤ p.tick_index ∧ p.previous_ticks.length = p.tick_index.toNat ∧
       ∀ t : Nat, t < p.tick_index.toNat → p.previous_ticks.get? t ≠ none) := by
  refine ⟨by decide, _, rfl, ?_⟩
  exact tick_history_length_invariant false false sampleStream _ (by decide) rfl

/-- C1: For every DDNetSequence in the completed list after running any
well-formed chunk stream, the number of input vectors equals the number of
player positions, and both equal end_tick minus start_tick (start_tick as
adjusted during extraction). -/
theorem seq_length_invariant (ck cr : Bool) (cs : List Chunk) (p : Parser)
    (hwf : ∀ c ∈ cs, chunkWF c = true)
    (hrun : runChunks (Parser.new ck cr) cs = .ok p) :
    ∀ s ∈ p.completed_sequences, ∃ e, s.end_tick = some e ∧
      s.input_vectors.length = s.player_positions.length ∧
      (s.input_vectors.length : Int) = e - s.start_tick := by
  have hinv := runChunks_inv cs (Parser.new ck cr) hwf (parser_new_inv ck cr)
  rw [hrun] at hinv
  exact fun s hs => (hinv.2.2.2 s hs).1

/-- Witness for C1 at the concrete sample stream. -/
theorem seq_length_invariant_witness :
    (∀ c ∈ sampleStream, chunkWF c = true) ∧
    ∃ p, runChunks (Parser.new false false) sampleStream = .ok p ∧
      ∀ s ∈ p.completed_sequences, ∃ e, s.end_tick = some e ∧
        s.input_vectors.length = s.player_positions.length ∧
        (s.input_vectors.length : Int) = e - s.start_tick := by
  refine ⟨by decide, _, rfl, ?_⟩
  exact seq_length_invariant false false sampleStream _ (by decide) rfl

/-- C3: For every dt >= 0, processing a TickSkip chunk advances tick_index
by exactly dt+1, appends exactly dt+1 copies of the current tick state to
the tick history, and clears last_cid. -/
theorem tick_skip_advances (p : Parser) (dt : Int) (hf : p.finished = false)
    (hdt : 0 ≤ dt) :
    ∃ p', p.parse_chunk (.tickSkip dt) = .ok p' ∧
      p'.tick_index = p.tick_index + (dt + 1) ∧
      p'.previous_ticks = p.previous_ticks ++ List.replicate (dt + 1).toNat p.current_tick ∧
      p'.previous_ticks.length = p.previous_ticks.length + (dt.toNat + 1) ∧
      p'.last_cid = none := by
  refine ⟨{ p.handle_tick_skip dt false with
            chunk_index := (p.handle_tick_skip dt false).chunk_index + 1 }, ?_, ?_, rfl, ?_, rfl⟩
  · unfold Parser.parse_chunk
    rw [hf]
    rfl
  · show p.tick_index + (1 + dt) = p.tick_index + (dt + 1)
    omega
  · show (p.previous_ticks ++ List.replicate (dt + 1).toNat p.current_tick).length
        = p.previous_ticks.length + (dt.toNat + 1)
    rw [List.length_append, List.length_replicate]
    omega

/-- Witness for C3 at a concrete parser and dt = 2. -/
theorem tick_skip_advances_witness :
    (Parser.new false false).finished = false ∧ (0 : Int) ≤ 2 ∧
    ∃ p', (Parser.new false false).parse_chunk (.tickSkip 2) = .ok p' ∧
      p'.tick_index = (Parser.new false false).tick_index + (2 + 1) ∧
      p'.previous_ticks = (Parser.new false false).previous_ticks
        ++ List.replicate ((2 : Int) + 1).toNat (Parser.new false false).current_tick ∧
      p'.previous_ticks.length = (Parser.new false false).previous_ticks.length
        + ((2 : Int).toNat + 1) ∧
      p'.last_cid = none :=
  ⟨rfl, by decide, tick_skip_advances (Parser.new false false) 2 rfl (by decide)⟩

/-- C2 counterexample: the literal stream containing only
PlayerDiff{cid=1}, PlayerDiff{cid=1} does not advance tick_index by 1 -- it
panics on the first chunk (apply_position_diff expects a position that was
never initialised by a PlayerNew), so no parser state results at all. -/
theorem implicit_tick_counterexample :
    runChunks (Parser.new false false) implicitDiffs = .panicked ∧
    ¬ ∃ p, runChunks (Parser.new false false) implicitDiffs = .ok p ∧ p.tick_index = 1 := by
  constructor
  · rfl
  · rintro ⟨p, h, -⟩
    rw [show runChunks (Parser.new false false) implicitDiffs = .panicked from rfl] at h
    exact PResult.noConfusion h

/-- C2 (amended): when a player-event chunk arrives with cid <= last_cid the
implicit-tick check advances tick_index by exactly one, pushing one history
snapshot, before the chunk body runs (handle_player_diff is the body applied
to the checked state); and the two-PlayerDiff scenario advances tick_index
by exactly 1 provided the player's position was initialised by a PlayerNew
and last_cid was cleared by a TickSkip first. -/
theorem implicit_tick_amended :
    (∀ (p : Parser) (cid last : Int), p.last_cid = some last → cid ≤ last →
      (p.check_implicit_tick cid).tick_index = p.tick_index + 1 ∧
      (p.check_implicit_tick cid).previous_ticks = p.previous_ticks ++ [p.current_tick] ∧
      (∀ dx dy, p.handle_player_diff cid dx dy
          = Parser.player_diff_core (p.check_implicit_tick cid) cid dx dy)) ∧
    (∃ p1 p2, runChunks (Parser.new false false) implicitPrefix = .ok p1 ∧
      p1.tick_index = 1 ∧
      runChunks p1 implicitDiffs = .ok p2 ∧ p2.tick_index = p1.tick_index + 1) := by
  constructor
  · intro p cid last hl hle
    refine ⟨?_, ?_, fun dx dy => rfl⟩
    · unfold Parser.check_implicit_tick
      rw [hl]
      simp only [if_pos hle]
      show p.tick_index + (1 + 0) = p.tick_index + 1
      omega
    · unfold Parser.check_implicit_tick
      rw [hl]
      simp only [if_pos hle]
      show p.previous_ticks ++ List.replicate ((0 : Int) + 1).toNat p.current_tick
          = p.previous_ticks ++ [p.current_tick]
      rfl
  · exact ⟨_, _, rfl, by decide, rfl, by decide⟩

/-- Witness for the amended C2 at a concrete parser state with
last_cid = some 5 and an incoming cid = 3. -/
theorem implicit_tick_amended_witness :
    ({ Parser.new false false with last_cid := some 5 } : Parser).last_cid = some 5 ∧
    (3 : Int) ≤ 5 ∧
    (({ Parser.new false false with last_cid := some 5 } : Parser).check_implicit_tick
        3).tick_index
      = ({ Parser.new false false with last_cid := some 5 } : Parser).tick_index + 1 :=
  ⟨rfl, by decide,
    (implicit_tick_amended.1 { Parser.new false false with last_cid := some 5 } 3 5 rfl
      (by decide)).1⟩

/-- C4 counterexample: running teleportStream succeeds and emits a completed
sequence containing a consecutive position pair with delta-x = -600, whose
absolute value exceeds the 500 threshold; the PlayerDiff with dx = -600 was
applied inside the active sequence instead of closing it (the source only
checks dx > 500, dy > 500, not the absolute values). -/
theorem step_bound_counterexample :
    ∃ p, runChunks (Parser.new false false) teleportStream = .ok p ∧
      ∃ s ∈ p.completed_sequences,
        ∃ w ∈ s.player_positions.zip s.player_positions.tail,
          w.2.1 - w.1.1 < -500 := by
  refine ⟨_, rfl, ?_⟩
  decide

/-- C4 (amended): for every completed sequence emitted under any well-formed
chunk stream, every pair of consecutive recorded positions satisfies
delta-x < 500 and delta-y < 500 (signed: positive deltas are bounded by the
teleport cut and the completion assert; negative deltas are not bounded). -/
theorem step_bound_amended (ck cr : Bool) (cs : List Chunk) (p : Parser)
    (hwf : ∀ c ∈ cs, chunkWF c = true)
    (hrun : runChunks (Parser.new ck cr) cs = .ok p) :
    ∀ s ∈ p.completed_sequences,
      ∀ w ∈ s.player_positions.zip s.player_positions.tail,
        w.2.1 - w.1.1 < 500 ∧ w.2.2 - w.1.2 < 500 := by
  have hinv := runChunks_inv cs (Parser.new ck cr) hwf (parser_new_inv ck cr)
  rw [hrun] at hinv
  exact fun s hs => (hinv.2.2.2 s hs).2

/-- Witness for the amended C4 at the concrete sample stream. -/
theorem step_bound_amended_witness :
    (∀ c ∈ sampleStream, chunkWF c = true) ∧
    ∃ p, runChunks (Parser.new false false) sampleStream = .ok p ∧
      ∀ s ∈ p.completed_sequences,
        ∀ w ∈ s.player_positions.zip s.player_positions.tail,
          w.2.1 - w.1.1 < 500 ∧ w.2.2 - w.1.2 < 500 := by
  refine ⟨by decide, _, rfl, ?_⟩
  exact step_bound_amended false false sampleStream _ (by decide) rfl

/-- C5 counterexample: the extraction loop does not survive every malformed
stream -- two InputNew chunks for the same cid panic inside the parser
(Tick::add_init_input), aborting the process instead of returning a
truncated list. -/
theorem extract_panic_counterexample :
    extractLoop (Parser.new false false) [.inputNew 0 zeroInput, .inputNew 0 zeroInput]
      = none := rfl

/-- C5 (amended): Result-typed parse errors never cross the extraction
boundary: for every input stream, extraction returns exactly the sequences
completed at the point the run stopped (whether it ran out of chunks or hit
a ParseError); only a panic (modelled as none) escapes. -/
theorem extract_error_containment (p : Parser) (cs : List Chunk) :
    extractLoop p cs =
      match runChunks p cs with
      | .ok q => some q.completed_sequences
      | .err q _ => some q.completed_sequences
      | .panicked => none := by
  induction cs generalizing p with
  | nil => rfl
  | cons c rest ih =>
    unfold extractLoop runChunks
    cases p.parse_chunk c with
    | ok p' => exact ih p'
    | err p' e => rfl
    | panicked => rfl

/-- C6 counterexample: an InputNew for a cid that already has an input
vector in the current tick is not tolerated -- parse_chunk panics, and no
ok state (with or without an overwritten vector) results. -/
theorem input_new_duplicate_counterexample :
    dupInputParser.parse_chunk (.inputNew 0 (List.replicate 10 1)) = .panicked ∧
    ¬ ∃ q, dupInputParser.parse_chunk (.inputNew 0 (List.replicate 10 1)) = .ok q := by
  constructor
  · rfl
  · rintro ⟨q, h⟩
    rw [show dupInputParser.parse_chunk (.inputNew 0 (List.replicate 10 1)) = .panicked
        from rfl] at h
    exact PResult.noConfusion h

/-- C6 (amended): when an InputNew chunk arrives for a cid that already has
an input vector in the current tick state, the parser logs a warning and
then panics: the stored vector is never overwritten and parsing aborts. -/
theorem input_new_duplicate_amended (p : Parser) (cid : Int) (v : InputVec)
    (hf : p.finished = false)
    (hdup : (alookup cid p.current_tick.input_vectors).isSome = true) :
    p.parse_chunk (.inputNew cid v) = .panicked := by
  unfold Parser.parse_chunk
  simp only [hf, Bool.false_eq_true, if_false]
  unfold Parser.handle_input_new Tick.add_init_input
  cases hl : alookup cid p.current_tick.input_vectors with
  | none => rw [hl] at hdup; simp at hdup
  | some a => rfl

/-- Witness for the amended C6 at the concrete duplicated-input state. -/
theorem input_new_duplicate_amended_witness :
    dupInputParser.finished = false ∧
    (alookup 0 dupInputParser.current_tick.input_vectors).isSome = true ∧
    dupInputParser.parse_chunk (.inputNew 0 zeroInput) = .panicked :=
  ⟨rfl, rfl, input_new_duplicate_amended dupInputParser 0 zeroInput rfl rfl⟩

/-- C7: starting from InputNew(v) and applying diffs d1..dn through the tick
state, the stored vector exists and each of its ten slots is congruent to
v + the sum of the diffs modulo 2^32 (32-bit wrap-around addition). -/
theorem input_diff_roundtrip (cid : Int) (v : InputVec) (ds : List InputVec)
    (hv : v.length = 10) (hds : ∀ d ∈ ds, d.length = 10) :
    ∃ r, inputAfterDiffs cid v ds = some r ∧ r.length = 10 ∧
      ∀ i, i < 10 →
        Int.ModEq (2 ^ 32) (r.getD i 0)
          (v.getD i 0 + (ds.map (fun d => d.getD i 0)).sum) := by
  refine ⟨_, ?_, wfold_length ds v hv hds, fun i hi => wfold_modEq ds v hv hds i hi⟩
  have h0 : Tick.new.add_init_input cid v
      = some { Tick.new with input_vectors := ains cid v Tick.new.input_vectors } := rfl
  unfold inputAfterDiffs
  rw [h0]
  exact alookup_fold_diffs cid ds
    { Tick.new with input_vectors := ains cid v Tick.new.input_vectors } v
    (alookup_ains_self cid v Tick.new.input_vectors)

/-- Witness for C7: one wrap-around diff on a vector of i32 maxima. -/
theorem input_diff_roundtrip_witness :
    (List.replicate 10 ((2 : Int) ^ 31 - 1)).length = 10 ∧
    ∃ r, inputAfterDiffs 0 (List.replicate 10 ((2 : Int) ^ 31 - 1))
        [[1, 0, 0, 0, 0, 0, 0, 0, 0, 0]] = some r ∧ r.length = 10 ∧
      ∀ i, i < 10 →
        Int.ModEq (2 ^ 32) (r.getD i 0)
          ((List.replicate 10 ((2 : Int) ^ 31 - 1)).getD i 0 +
            (([[1, 0, 0, 0, 0, 0, 0, 0, 0, 0]] : List InputVec).map
              (fun d => d.getD i 0)).sum) :=
  ⟨by decide, input_diff_roundtrip 0 _ _ (by decide) (by decide)⟩

/-- C8: evaluation of Duration::cut_duration at Duration{start=5, end=14}
with target_length = 5: the code emits floor(10/5) = 2 back-to-back slices
of exactly 5 ticks, but anchored at 0 ([0..4], [5..9]) instead of at the
Duration's start 5 ([5..9], [10..14]) -- the off-anchor slicing the spec
itself flags as a source bug. -/
theorem cut_duration_code_eval :
    Duration.cut_duration ⟨5, 14⟩ 5 = [⟨0, 4⟩, ⟨5, 9⟩] ∧
    ((Duration.cut_duration ⟨5, 14⟩ 5).map Duration.start).head? = some 0 ∧
    (Duration.cut_duration ⟨5, 14⟩ 5).length = 10 / 5 ∧
    (Duration.mk 5 14).start = 5 ∧ (0 : Nat) ≠ 5 := by
  refine ⟨?_, rfl, rfl, rfl, by decide⟩
  rfl

/-- C9: evaluation of weighted_jaccard at a = {x:1}, b = {x:1, y:1}: the
code iterates a.keys().chain(b.keys()) without deduplication, counting the
shared key x twice (num = 2, den = 3, shared = 2), returning 2/3, whereas
the claimed formula over the union of the keys gives 1/2. -/
theorem weighted_jaccard_code_eval :
    (weighted_jaccard [("x", 1)] [("x", 1), ("y", 1)]).1 = 2 / 3 ∧
    (weighted_jaccard [("x", 1)] [("x", 1), ("y", 1)]).2 = 2 ∧
    weightedJaccardSpec [("x", 1)] [("x", 1), ("y", 1)] = 1 / 2 ∧
    ((2 : ℚ) / 3 ≠ 1 / 2) := by
  have hl : wjLoop [("x", 1)] [("x", 1), ("y", 1)] = (2, 3, 2) := by decide
  have hk : ((([("x", 1)] : List (String × Nat)).map Prod.fst ++
      ([("x", 1), ("y", 1)] : List (String × Nat)).map Prod.fst)).dedup = ["x", "y"] := by
    decide
  refine ⟨?_, ?_, ?_, by norm_num⟩
  · simp only [weighted_jaccard, hl]
    norm_num
  · simp only [weighted_jaccard, hl]
  · have hxy : ¬ ("x" : String) = "y" := by decide
    simp only [weightedJaccardSpec, hk]
    norm_num [alookup, hxy]

end TeeExtract
